import Mathlib

/-!
# Verification of the llm-shield scanning engine specification

A shallow embedding of the llm-shield content-safety engine, written from the
repository sources (Python examples, tests and benchmark scripts under
`crates/llm-shield-py` and `benchmarks/scripts`).  Text is modelled as
`List Char` (codepoints), risk scores as rationals, scanners as functions
from text to a scan result.  Components whose implementation lives in the
Rust core (absent from the available sources) are modelled from the
specification and carry a doc comment saying so.
-/

set_option maxHeartbeats 1000000

namespace LlmShield

/-- Text is a list of Unicode scalar values (codepoints). -/
abbrev Text := List Char

/-- A detected span: entity_type (string tag), the matched text, and a
confidence score in [0,1].  (Offsets are orthogonal to the properties
verified here and are omitted from the embedding.) -/
structure Entity where
  entity_type : String
  text : Text
  score : ℚ
deriving DecidableEq, Repr

/-- A risk factor: description plus severity. -/
structure RiskFactor where
  description : String
  severity : Nat
deriving DecidableEq, Repr

/-- The result record produced by one scanner invocation, mirroring the
`ScanResultRecord` of the binding surface: `sanitized_input`, `is_valid`,
`risk_score`, `entities`, `risk_factors`. -/
structure ScanResult where
  sanitized_input : Text
  is_valid : Bool
  risk_score : ℚ
  entities : List Entity
  risk_factors : List RiskFactor
deriving DecidableEq, Repr

/-! ## Character-list matching primitives

`leadMatch s t` decides whether `s` occurs at the very start of `t`;
`occursIn s t` decides whether `s` occurs contiguously anywhere in `t`
(the embedding of Python's `s in t`). -/

/-- Decides whether `s` is an initial segment of `t`. -/
def leadMatch : Text → Text → Bool
  | [], _ => true
  | _ :: _, [] => false
  | a :: s, b :: t => a == b && leadMatch s t

/-- Decides whether `s` occurs contiguously somewhere in `t`. -/
def occursIn : Text → Text → Bool
  | s, [] => s.isEmpty
  | s, c :: t => leadMatch s (c :: t) || occursIn s t

theorem leadMatch_iff (s t : Text) : leadMatch s t = true ↔ ∃ v, t = s ++ v := by
  induction s generalizing t with
  | nil => simp [leadMatch]
  | cons a s ih =>
    cases t with
    | nil => simp [leadMatch]
    | cons b t =>
      simp only [leadMatch, Bool.and_eq_true, beq_iff_eq, ih]
      constructor
      · rintro ⟨rfl, v, rfl⟩
        exact ⟨v, rfl⟩
      · rintro ⟨v, hv⟩
        cases hv
        exact ⟨rfl, v, rfl⟩

theorem occursIn_iff (s t : Text) : occursIn s t = true ↔ ∃ u v, t = u ++ s ++ v := by
  induction t with
  | nil =>
    simp only [occursIn, List.isEmpty_iff]
    constructor
    · rintro rfl; exact ⟨[], [], rfl⟩
    · rintro ⟨u, v, huv⟩
      rcases List.append_eq_nil.mp huv.symm with ⟨h1, h2⟩
      exact (List.append_eq_nil.mp h1).2
  | cons c t ih =>
    simp only [occursIn, Bool.or_eq_true, leadMatch_iff, ih]
    constructor
    · rintro (⟨v, hv⟩ | ⟨u, v, rfl⟩)
      · exact ⟨[], v, by simp [hv]⟩
      · exact ⟨c :: u, v, rfl⟩
    · rintro ⟨u, v, huv⟩
      cases u with
      | nil => exact Or.inl ⟨v, by simpa using huv⟩
      | cons x u =>
        right
        refine ⟨u, v, ?_⟩
        have := huv
        simp only [List.cons_append] at this
        exact (List.cons.injEq _ _ _ _ ▸ this).2

/-- An occurrence in a tail is an occurrence. -/
theorem occursIn_of_tail {s t : Text} (c : Char) (h : occursIn s t = true) :
    occursIn s (c :: t) = true := by
  simp [occursIn, h]

theorem occursIn_cons_elim {s : Text} {c : Char} {t : Text}
    (h : occursIn s (c :: t) = true) :
    leadMatch s (c :: t) = true ∨ occursIn s t = true := by
  simpa [occursIn, Bool.or_eq_true] using h

/-! ## Pipeline aggregation (`scan_input` in `examples/fastapi_integration.py`)

The only aggregation code in the sources is the `scan_input` endpoint
(`fastapi_integration.py`, lines 62-86).  It iterates over the configured
input scanners, calls `scanner.scan(request.text, vault)` with the original
request text each time, and for every scanner whose result is not valid it
appends the scanner name to `detected_issues`, takes the running maximum of
the risk scores, and overwrites `sanitized_text` with that scanner's
`sanitized_input`.  A scanner is embedded as its observable behaviour on
the scanned text: a name together with a function from text to result. -/

/-- A named input scanner, as iterated over by `scan_input`. -/
abbrev InputScanner := String × (Text → ScanResult)

/-- The response record assembled by `scan_input`. -/
structure ScanResponse where
  sanitized_text : Text
  is_valid : Bool
  risk_score : ℚ
  detected_issues : List String
deriving DecidableEq, Repr

/-- The scanner loop of `scan_input`: state is
`(detected_issues, max_risk_score, sanitized_text)`; each scanner is called
on the original request `text`, and the state is updated only when the
scanner's result is invalid. -/
def scanInputLoop (text : Text) :
    List InputScanner → List String × ℚ × Text → List String × ℚ × Text
  | [], st => st
  | sc :: rest, (issues, maxRisk, sanitized) =>
    let result := sc.2 text
    if result.is_valid then
      scanInputLoop text rest (issues, maxRisk, sanitized)
    else
      scanInputLoop text rest
        (issues ++ [sc.1], max maxRisk result.risk_score, result.sanitized_input)

/-- Embedding of the `scan_input` endpoint body: starts from
`detected_issues = []`, `max_risk_score = 0.0`, `sanitized_text = text`,
runs the loop, and returns `is_valid = (detected_issues is empty)`. -/
def scanInput (scanners : List InputScanner) (text : Text) : ScanResponse :=
  let st := scanInputLoop text scanners ([], 0, text)
  { sanitized_text := st.2.2
    is_valid := st.1.isEmpty
    risk_score := st.2.1
    detected_issues := st.1 }

/-- The scanners of the list whose result on `text` is invalid, in order. -/
def invalidOf (scanners : List InputScanner) (text : Text) : List InputScanner :=
  scanners.filter (fun sc => (sc.2 text).is_valid = false)

/-- Modelled from the spec: the aggregate risk score the specification
asserts (section 4.5 rule 3 and section 8) — the maximum over the risk
scores of **all** individual scanner results, valid ones included. -/
def specAggRisk (scanners : List InputScanner) (text : Text) : ℚ :=
  (scanners.map (fun sc => (sc.2 text).risk_score)).foldl max 0

/-- Modelled from the spec: the sanitized output the specification asserts
(section 4.5 rule 5) — each scanner is fed the previous scanner's sanitized
text, and the aggregate `sanitized_input` is the last scanner's output of
that chain. -/
def specChainSanitized (scanners : List InputScanner) (text : Text) : Text :=
  scanners.foldl (fun t sc => (sc.2 t).sanitized_input) text

/-- Characterization of the `scan_input` loop in terms of the sublist of
scanners whose result on `text` is invalid. -/
theorem scanInputLoop_spec (text : Text) (scanners : List InputScanner)
    (issues : List String) (risk : ℚ) (san : Text) :
    scanInputLoop text scanners (issues, risk, san) =
      (issues ++ (invalidOf scanners text).map (fun sc => sc.1),
       ((invalidOf scanners text).map (fun sc => (sc.2 text).risk_score)).foldl max risk,
       (invalidOf scanners text).foldl (fun _ sc => (sc.2 text).sanitized_input) san) := by
  induction scanners generalizing issues risk san with
  | nil => simp [scanInputLoop, invalidOf]
  | cons sc rest ih =>
    by_cases h : (sc.2 text).is_valid = true
    · have hfil : invalidOf (sc :: rest) text = invalidOf rest text := by
        simp [invalidOf, List.filter, h]
      rw [show scanInputLoop text (sc :: rest) (issues, risk, san)
            = scanInputLoop text rest (issues, risk, san) by
          simp [scanInputLoop, h]]
      rw [ih, hfil]
    · have hb : (sc.2 text).is_valid = false := by
        cases hv : (sc.2 text).is_valid
        · rfl
        · exact absurd hv h
      have hfil : invalidOf (sc :: rest) text = sc :: invalidOf rest text := by
        simp [invalidOf, List.filter, hb]
      rw [show scanInputLoop text (sc :: rest) (issues, risk, san)
            = scanInputLoop text rest
                (issues ++ [sc.1], max risk (sc.2 text).risk_score,
                  (sc.2 text).sanitized_input) by
          simp [scanInputLoop, hb]]
      rw [ih, hfil]
      simp [List.append_assoc]

/-- A scanner whose result is valid but carries a positive risk score:
`scan_input` ignores its score when aggregating. -/
def cexValidScanner : InputScanner :=
  ("clean_but_risky", fun t => ⟨t, true, 7/10, [], []⟩)

/-- A scanner that reports invalid and rewrites the whole input to `"A"`. -/
def cexRewriteA : InputScanner :=
  ("rewriter", fun _ => ⟨['A'], false, 1, [], []⟩)

/-- A scanner that reports invalid and appends `'!'` to whatever text it is
fed — so its output reveals which text it was given. -/
def cexAppendBang : InputScanner :=
  ("appender", fun t => ⟨t ++ ['!'], false, 1, [], []⟩)

/-- C1 counterexample: one scanner that is valid with risk score 0.7.  The
spec says the aggregate risk score is the maximum over **all** results
(0.7 here), but `scan_input` only folds the scores of invalid results and
returns 0.0. -/
theorem C1_counterexample :
    (scanInput [cexValidScanner] []).risk_score ≠ specAggRisk [cexValidScanner] [] := by
  have h1 : (scanInput [cexValidScanner] []).risk_score = 0 := by
    simp [scanInput, scanInputLoop, cexValidScanner]
  have h2 : specAggRisk [cexValidScanner] [] = 7/10 := by
    simp [specAggRisk, cexValidScanner]
    norm_num
  rw [h1, h2]
  norm_num

/-- C1 (amended): in `scan_input`, the aggregate `is_valid` is the logical
AND of all scanner results' `is_valid`, and the aggregate `risk_score` is
the maximum of the risk scores of the scanners whose result was
**invalid** (0.0 when every scanner passed) — the scores of valid results
are not consulted. -/
theorem C1_pipeline_aggregation (scanners : List InputScanner) (text : Text) :
    (scanInput scanners text).is_valid
        = scanners.all (fun sc => (sc.2 text).is_valid)
      ∧ (scanInput scanners text).risk_score
        = ((invalidOf scanners text).map (fun sc => (sc.2 text).risk_score)).foldl max 0 := by
  constructor
  · rw [Bool.eq_iff_iff]
    simp only [scanInput, scanInputLoop_spec, List.nil_append, List.isEmpty_iff,
      List.map_eq_nil_iff, invalidOf, List.filter_eq_nil_iff, List.all_eq_true]
    constructor
    · intro h sc hsc
      cases hv : (sc.2 text).is_valid
      · exact absurd hv (by simpa using h sc hsc)
      · rfl
    · intro h sc hsc
      simp [h sc hsc]
  · simp [scanInput, scanInputLoop_spec]

/-- C4 counterexample: two invalid scanners over input `"o"`.  Under the
spec's chained-redaction rule the second scanner would receive the first
scanner's output `"A"` and the aggregate sanitized text would be `"A!"`;
`scan_input` instead feeds every scanner the original `"o"` and ends with
`"o!"`. -/
theorem C4_counterexample :
    (scanInput [cexRewriteA, cexAppendBang] ['o']).sanitized_text
      ≠ specChainSanitized [cexRewriteA, cexAppendBang] ['o'] := by
  have h1 : (scanInput [cexRewriteA, cexAppendBang] ['o']).sanitized_text = ['o', '!'] := by
    simp [scanInput, scanInputLoop, cexRewriteA, cexAppendBang]
  have h2 : specChainSanitized [cexRewriteA, cexAppendBang] ['o'] = ['A', '!'] := by
    simp [specChainSanitized, cexRewriteA, cexAppendBang]
  rw [h1, h2]
  decide

/-- C4 (amended): `scan_input` feeds every scanner the **original** request
text, and the aggregate `sanitized_text` is the `sanitized_input` produced
by the **last invalid** scanner on the original text — or the original text
itself when every scanner passes.  Redaction does not compose across the
chain. -/
theorem C4_sanitized_last_invalid (scanners : List InputScanner) (text : Text) :
    (scanInput scanners text).sanitized_text
      = (invalidOf scanners text).foldl (fun _ sc => (sc.2 text).sanitized_input) text := by
  simp [scanInput, scanInputLoop_spec]

/-! ## Entropy and the secret-detection loop
(`benchmarks/scripts/bench_latency_runner.py`, `scenario_1c_secrets`)

Line 201 of the benchmark runner computes
`entropy = len(set(text)) / len(text) if text else 0` and keeps a matched
span only when `entropy > 0.5`.  `len(set(text))` is the number of distinct
characters, i.e. the length of the deduplicated list. -/

/-- The simplified ratio entropy of a span: distinct-character count divided
by length, with the empty span guarded to 0. -/
def benchEntropy (text : Text) : ℚ :=
  if text.isEmpty then 0 else (text.dedup.length : ℚ) / (text.length : ℚ)

/-- A search pattern, abstracted over the regex engine: given the prompt it
returns the first matched span, if any (Python's `pattern.search`). -/
abbrev SearchPattern := Text → Option Text

/-- Embedding of the scenario 1C inner loop: for each pattern, take its
first match on the prompt, compute the entropy, and keep the span only when
the entropy exceeds 0.5. -/
def scenario1cMatches (patterns : List SearchPattern) (prompt : Text) : List Text :=
  patterns.filterMap (fun p =>
    match p prompt with
    | some text => if benchEntropy text > 1/2 then some text else none
    | none => none)

/-! ## Pattern-set matching
(`bench_latency_runner.py`, `scenario_1b_regex` and `scenario_1d_prompt_injection`)

Scenario 1B flags with `found = any(matches)`; scenario 1D counts matching
patterns with `matches = sum(1 for pattern in injection_patterns if
pattern.search(prompt))` and flags with `is_injection = matches >= 2`.
A pattern is abstracted as its match verdict on a text (the spec's
pattern-set matcher is defined "without assuming a particular engine"). -/

/-- A boolean match pattern. -/
abbrev MatchPattern := Text → Bool

/-- Scenario 1B: the input is flagged when any pattern matches. -/
def regexSetFound (patterns : List MatchPattern) (text : Text) : Bool :=
  patterns.any (fun p => p text)

/-- Scenario 1D: the number of patterns that match the prompt. -/
def injectionMatchCount (patterns : List MatchPattern) (text : Text) : Nat :=
  (patterns.filter (fun p => p text)).length

/-- Scenario 1D: threshold-based detection, `matches >= 2`. -/
def isInjection (patterns : List MatchPattern) (text : Text) : Bool :=
  decide (2 ≤ injectionMatchCount patterns text)

/-- Modelled from the spec: the pattern-set scanner's flag condition
(section 4.3) — invalid as soon as the number of matching patterns reaches
the configured requirement `n`, whose default is 1 ("flags the input
invalid if any configured pattern matches (configurable to require N
matches)").  The Rust scanner wrapper itself is not among the available
sources. -/
def patternSetFlag (n : Nat) (patterns : List MatchPattern) (text : Text) : Bool :=
  decide (n ≤ injectionMatchCount patterns text)

/-- C10: the entropy computation of `scenario_1c_secrets` is total — the
guarded expression yields 0 on the empty span instead of dividing by zero —
and therefore an empty match never exceeds the 0.5 threshold: every span
kept in `matches` is non-empty. -/
theorem C10_entropy_empty_guard (patterns : List SearchPattern) (prompt : Text) :
    benchEntropy [] = 0
      ∧ ∀ m ∈ scenario1cMatches patterns prompt, 0 < m.length := by
  refine ⟨by simp [benchEntropy], ?_⟩
  intro m hm
  rcases List.mem_filterMap.mp hm with ⟨p, _, hp⟩
  cases hmatch : p prompt with
  | none => rw [hmatch] at hp; exact absurd hp (by simp)
  | some text =>
    rw [hmatch] at hp
    dsimp only at hp
    by_cases hent : benchEntropy text > 1/2
    · rw [if_pos hent] at hp
      have hm2 : m = text := (Option.some.injEq _ _ ▸ hp).symm
      subst hm2
      cases m with
      | nil =>
        have hze : benchEntropy ([] : Text) = 0 := by simp [benchEntropy]
        rw [hze] at hent
        norm_num at hent
      | cons c rest => simp
    · rw [if_neg hent] at hp
      exact absurd hp (by simp)

/-- C10 witness: a concrete pattern returning the span `"ab"` (entropy 1)
on the empty prompt; the kept match is non-empty. -/
theorem C10_entropy_empty_guard_witness : 0 < (['a', 'b'] : Text).length :=
  (C10_entropy_empty_guard [fun _ => some ['a', 'b']] []).2 ['a', 'b'] (by
    have hent : benchEntropy ['a', 'b'] > 1/2 := by
      have hdd : (['a', 'b'] : Text).dedup = ['a', 'b'] := by decide
      rw [benchEntropy]
      simp only [hdd]
      norm_num
    have hstep : scenario1cMatches [fun _ => some ['a', 'b']] [] = [['a', 'b']] := by
      simp only [scenario1cMatches, List.filterMap_cons, List.filterMap_nil]
      rw [if_pos hent]
    rw [hstep]
    simp)

/-- C8: a pattern-set scanner with the default requirement of one match
flags exactly when some configured pattern matches (scenario 1B's
`found = any(matches)`), and the explicit N-match configuration (N = 2)
coincides with scenario 1D's `is_injection = matches >= 2`. -/
theorem C8_pattern_set_any_match (patterns : List MatchPattern) (text : Text) :
    patternSetFlag 1 patterns text = regexSetFound patterns text
      ∧ (regexSetFound patterns text = true ↔ ∃ p ∈ patterns, p text = true)
      ∧ patternSetFlag 2 patterns text = isInjection patterns text := by
  refine ⟨?_, by simp [regexSetFound, List.any_eq_true], rfl⟩
  rw [Bool.eq_iff_iff]
  simp only [patternSetFlag, injectionMatchCount, regexSetFound, decide_eq_true_eq,
    Nat.one_le_iff_ne_zero, ne_eq, List.length_eq_zero, List.filter_eq_nil_iff,
    List.any_eq_true]
  push_neg
  constructor
  · rintro ⟨p, hp, hv⟩
    exact ⟨p, hp, by simpa using hv⟩
  · rintro ⟨p, hp, hv⟩
    exact ⟨p, hp, by simp [hv]⟩

/-! ## Secrets scanner

Modelled from the spec: the Secrets scanner itself lives in the Rust core
(`llm_shield._internal`), which is not among the available sources — only
its tests, examples and a benchmark simulation are.  Section 4.4 of the
specification describes it: a library of structural patterns with fixed
recognizable prefixes (AWS keys, Stripe keys, Slack tokens, GitHub tokens,
JWTs) reported regardless of entropy, plus a generic opaque
high-length-token fallback that must pass the entropy gate (simplified
ratio entropy above a configured threshold, default 0.5); a detected
secret carries a risk score of at least 0.8. -/

/-- Per-scanner configuration of the Secrets scanner: the entropy threshold
for the generic fallback (default 0.5) and the redact flag. -/
structure SecretsCfg where
  threshold : ℚ
  redact : Bool
deriving DecidableEq, Repr

/-- Modelled from the spec: the default Secrets configuration — entropy
threshold 0.5 on the simplified ratio scale. -/
def secretsDefault : SecretsCfg := ⟨1/2, true⟩

/-- Characters that may appear in an opaque token: letters, digits,
underscore, hyphen. -/
def tokenChar (c : Char) : Bool := c.isAlphanum || c == '_' || c == '-'

/-- Splits text into maximal runs of token characters (`acc` holds the
current run reversed). -/
def tokenizeAux : List Char → List Char → List Text
  | acc, [] => if acc.isEmpty then [] else [acc.reverse]
  | acc, c :: rest =>
    if tokenChar c then tokenizeAux (c :: acc) rest
    else if acc.isEmpty then tokenizeAux [] rest
    else acc.reverse :: tokenizeAux [] rest

/-- The candidate token spans of a text. -/
def tokenize (t : Text) : List Text := tokenizeAux [] t

/-- Modelled from the spec: the structural pattern library — each entry is
a fixed recognizable prefix and the entity type it is reported as. -/
def structuralPrefixes : List (Text × String) :=
  [(['A', 'K', 'I', 'A'], "AWS_ACCESS_KEY"),
   (['g', 'h', 'p', '_'], "GITHUB_PAT"),
   (['x', 'o', 'x', 'b', '-'], "SLACK_BOT_TOKEN"),
   (['s', 'k', '_', 'l', 'i', 'v', 'e', '_'], "STRIPE_LIVE_KEY"),
   (['s', 'k', '_', 't', 'e', 's', 't', '_'], "STRIPE_TEST_KEY"),
   (['e', 'y', 'J'], "JWT")]

/-- The structural entity type of a token, when a fixed prefix matches. -/
def structuralType (tok : Text) : Option String :=
  (structuralPrefixes.find? (fun p => leadMatch p.1 tok)).map (fun p => p.2)

/-- Modelled from the spec: the generic opaque-high-entropy-token fallback —
a long token (at least 20 characters) that passes the entropy gate. -/
def genericSecret (cfg : SecretsCfg) (tok : Text) : Bool :=
  decide (20 ≤ tok.length) && decide (benchEntropy tok > cfg.threshold)

/-- Classify one token: structural prefixes are reported regardless of
entropy; the generic fallback requires passing the entropy gate. -/
def classifyToken (cfg : SecretsCfg) (tok : Text) : Option String :=
  match structuralType tok with
  | some ty => some ty
  | none => if genericSecret cfg tok then some "GENERIC_API_KEY" else none

/-- Modelled from the spec: the Secrets scanner's `scan` — classify every
candidate token, collect entities, report invalid with risk score 0.9
(design target at least 0.8) when any secret is found. -/
def secretsScan (cfg : SecretsCfg) (t : Text) : ScanResult :=
  let ents := (tokenize t).filterMap
    (fun tok => (classifyToken cfg tok).map (fun ty => Entity.mk ty tok (9/10)))
  { sanitized_input := t
    is_valid := ents.isEmpty
    risk_score := if ents.isEmpty then 0 else 9/10
    entities := ents
    risk_factors := [] }

/-- A pattern whose first two characters differ never lead-matches a text
whose first two characters are equal. -/
theorem leadMatch_distinct_pair {a b : Char} (hab : a ≠ b) (p : Text) (c : Char) (t : Text) :
    leadMatch (a :: b :: p) (c :: c :: t) = false := by
  cases h1 : a == c with
  | false => simp [leadMatch, h1]
  | true =>
    cases h2 : b == c with
    | false => simp [leadMatch, h1, h2]
    | true => exact absurd ((eq_of_beq h1).trans (eq_of_beq h2).symm) hab

/-- No structural prefix matches a constant token of length at least 2:
every prefix in the library has two distinct leading characters. -/
theorem structuralType_replicate (c : Char) (n : Nat) (hn : 2 ≤ n) :
    structuralType (List.replicate n c) = none := by
  obtain ⟨m, rfl⟩ : ∃ m, n = m + 2 := ⟨n - 2, by omega⟩
  have hrep : List.replicate (m + 2) c = c :: c :: List.replicate m c := by
    simp [List.replicate_succ]
  rw [hrep]
  have h1 := leadMatch_distinct_pair (show ('A' : Char) ≠ 'K' by decide)
    ['I', 'A'] c (List.replicate m c)
  have h2 := leadMatch_distinct_pair (show ('g' : Char) ≠ 'h' by decide)
    ['p', '_'] c (List.replicate m c)
  have h3 := leadMatch_distinct_pair (show ('x' : Char) ≠ 'o' by decide)
    ['x', 'b', '-'] c (List.replicate m c)
  have h4 := leadMatch_distinct_pair (show ('s' : Char) ≠ 'k' by decide)
    ['_', 'l', 'i', 'v', 'e', '_'] c (List.replicate m c)
  have h5 := leadMatch_distinct_pair (show ('s' : Char) ≠ 'k' by decide)
    ['_', 't', 'e', 's', 't', '_'] c (List.replicate m c)
  have h6 := leadMatch_distinct_pair (show ('e' : Char) ≠ 'y' by decide)
    ['J'] c (List.replicate m c)
  simp [structuralType, structuralPrefixes, List.find?, h1, h2, h3, h4, h5, h6]

/-- The deduplication of a non-empty constant list is the singleton. -/
theorem dedup_replicate_succ (c : Char) (m : Nat) :
    (List.replicate (m + 1) c).dedup = [c] := by
  induction m with
  | zero => simp
  | succ k ih =>
    have hrep : List.replicate (k + 2) c = c :: List.replicate (k + 1) c := by
      simp [List.replicate_succ]
    rw [hrep, List.dedup_cons_of_mem (by simp [List.mem_replicate]), ih]

/-- The ratio entropy of a constant token of length `n ≥ 1` is `1 / n`. -/
theorem benchEntropy_replicate (c : Char) (n : Nat) (hn : 1 ≤ n) :
    benchEntropy (List.replicate n c) = 1 / (n : ℚ) := by
  obtain ⟨m, rfl⟩ : ∃ m, n = m + 1 := ⟨n - 1, by omega⟩
  rw [benchEntropy]
  rw [if_neg (by simp [List.isEmpty_iff])]
  rw [dedup_replicate_succ]
  simp

/-- C3: the Secrets scanner threshold policy.  A token is reported as a
generic secret only when its ratio entropy exceeds the configured
threshold, whose default is 0.5; a constant token of length at least 2
(in particular a 20-character token of one repeated character) is never
flagged as a generic secret under the default threshold; and a token
matching the structural `AKIA` prefix is reported as `AWS_ACCESS_KEY`
under every configuration, regardless of entropy. -/
theorem C3_secrets_threshold_policy (cfg : SecretsCfg) (tok : Text) (c : Char) (n : Nat) :
    (genericSecret cfg tok = true → benchEntropy tok > cfg.threshold)
      ∧ secretsDefault.threshold = 1/2
      ∧ (2 ≤ n → classifyToken secretsDefault (List.replicate n c) = none)
      ∧ (leadMatch ['A', 'K', 'I', 'A'] tok = true →
          classifyToken cfg tok = some "AWS_ACCESS_KEY") := by
  refine ⟨?_, rfl, ?_, ?_⟩
  · intro h
    have := (Bool.and_eq_true _ _).mp h
    exact of_decide_eq_true this.2
  · intro hn
    have hstruct := structuralType_replicate c n hn
    have hent : benchEntropy (List.replicate n c) = 1 / (n : ℚ) :=
      benchEntropy_replicate c n (by omega)
    have hle : (1 : ℚ) / (n : ℚ) ≤ 1/2 := by
      rw [div_le_div_iff₀ (by positivity) (by norm_num)]
      have h2n : (2 : ℚ) ≤ (n : ℚ) := by exact_mod_cast hn
      linarith
    have hgen : genericSecret secretsDefault (List.replicate n c) = false := by
      have hd : decide (benchEntropy (List.replicate n c) > secretsDefault.threshold)
          = false := by
        rw [decide_eq_false_iff_not, hent]
        rw [show secretsDefault.threshold = 1/2 from rfl]
        exact not_lt.mpr hle
      rw [genericSecret, hd, Bool.and_false]
    rw [classifyToken, hstruct, hgen]
    rfl
  · intro h
    rw [classifyToken, structuralType, structuralPrefixes]
    simp [List.find?, h]

/-- A concrete low-entropy structural token: `AKIA` followed by sixteen
repeated `A`s (20 characters, 3 distinct — entropy 3/20). -/
def lowEntropyAkia : Text := ['A', 'K', 'I', 'A'] ++ List.replicate 16 'A'

/-- C3 witness: the 20-character constant token is not flagged as a generic
secret, while the low-entropy `AKIA`-prefixed token (entropy 3/20, below
the 0.5 threshold) is still reported as an AWS access key. -/
theorem C3_secrets_threshold_policy_witness :
    benchEntropy lowEntropyAkia ≤ 1/2
      ∧ classifyToken secretsDefault lowEntropyAkia = some "AWS_ACCESS_KEY"
      ∧ classifyToken secretsDefault (List.replicate 20 'a') = none := by
  refine ⟨?_, ?_, ?_⟩
  · have hdd : lowEntropyAkia.dedup.length = 3 := by decide
    have hln : lowEntropyAkia.length = 20 := by decide
    rw [benchEntropy, if_neg (by decide), hdd, hln]
    norm_num
  · exact (C3_secrets_threshold_policy secretsDefault lowEntropyAkia 'a' 20).2.2.2
      (by decide)
  · exact (C3_secrets_threshold_policy secretsDefault lowEntropyAkia 'a' 20).2.2.1
      (by norm_num)

/-- The end-to-end Secrets input of the acceptance material. -/
def c6Input : Text := "My API key is sk-proj-abc123def456".toList

/-- The opaque token inside `c6Input`: 20 characters, 19 distinct. -/
def c6Key : Text :=
  ['s', 'k', '-', 'p', 'r', 'o', 'j', '-', 'a', 'b',
   'c', '1', '2', '3', 'd', 'e', 'f', '4', '5', '6']

/-- C6: the Secrets scanner on `"My API key is sk-proj-abc123def456"`
returns `is_valid = false`, at least one entity whose type indicates a key
pattern, and a risk score of at least 0.8. -/
theorem C6_secrets_end_to_end :
    (secretsScan secretsDefault c6Input).is_valid = false
      ∧ (∃ e ∈ (secretsScan secretsDefault c6Input).entities,
          e.entity_type = "GENERIC_API_KEY")
      ∧ 8/10 ≤ (secretsScan secretsDefault c6Input).risk_score := by
  have hent : benchEntropy c6Key > secretsDefault.threshold := by
    have hdd : c6Key.dedup.length = 19 := by decide
    have hln : c6Key.length = 20 := by decide
    rw [benchEntropy, if_neg (by decide), hdd, hln]
    rw [show secretsDefault.threshold = 1/2 from rfl]
    norm_num
  have hgen : genericSecret secretsDefault c6Key = true := by
    have h1 : decide (20 ≤ c6Key.length) = true := by decide
    have h2 : decide (benchEntropy c6Key > secretsDefault.threshold) = true :=
      decide_eq_true hent
    rw [genericSecret, h1, h2]
    rfl
  have hkey : classifyToken secretsDefault c6Key = some "GENERIC_API_KEY" := by
    have hstruct : structuralType c6Key = none := by decide
    rw [classifyToken, hstruct, if_pos hgen]
  have htok : tokenize c6Input
      = [['M', 'y'], ['A', 'P', 'I'], ['k', 'e', 'y'], ['i', 's'], c6Key] := by
    decide
  have h1 : classifyToken secretsDefault ['M', 'y'] = none := by decide
  have h2 : classifyToken secretsDefault ['A', 'P', 'I'] = none := by decide
  have h3 : classifyToken secretsDefault ['k', 'e', 'y'] = none := by decide
  have h4 : classifyToken secretsDefault ['i', 's'] = none := by decide
  have hents : (secretsScan secretsDefault c6Input).entities
      = [Entity.mk "GENERIC_API_KEY" c6Key (9/10)] := by
    simp [secretsScan, htok, List.filterMap_cons, h1, h2, h3, h4, hkey]
  refine ⟨?_, ?_, ?_⟩
  · have hne : (secretsScan secretsDefault c6Input).entities ≠ [] := by
      rw [hents]; simp
    simp only [secretsScan] at hents ⊢
    simp [List.filterMap_cons, htok, h1, h2, h3, h4, hkey]
  · exact ⟨Entity.mk "GENERIC_API_KEY" c6Key (9/10), by rw [hents]; simp, rfl⟩
  · simp only [secretsScan]
    rw [show ((tokenize c6Input).filterMap
        (fun tok => (classifyToken secretsDefault tok).map
          (fun ty => Entity.mk ty tok (9/10))))
        = [Entity.mk "GENERIC_API_KEY" c6Key (9/10)] by
      simp [htok, List.filterMap_cons, h1, h2, h3, h4, hkey]]
    norm_num

/-! ## Vault

Modelled from the spec: the Vault lives in the Rust core, not among the
available sources; only its tests and callers are.  Section 3 and 4.1
describe it as an ordered mapping from string key to string value with no
duplicate keys, insertion order preserved for enumeration, `set` that
overwrites or inserts, `get` that returns the value or signals absence
(the Python binding returns `None`, embedded as `Option`), `contains`,
`remove` (no-op when absent), `clear`, `keys` in insertion order, and a
size query. -/

/-- Vault state: an ordered association list of key/value pairs. -/
abbrev VaultST := List (String × String)

/-- A freshly constructed Vault. -/
def vaultNew : VaultST := []

/-- The `set` operation overwrites in place when the key is present (keeping its
insertion position) and appends otherwise. -/
def vset : VaultST → String → String → VaultST
  | [], k, val => [(k, val)]
  | (k0, v0) :: rest, k, val =>
    if k0 = k then (k0, val) :: rest else (k0, v0) :: vset rest k val

/-- The `get` operation returns the value stored under the key, or signals absence. -/
def vget : VaultST → String → Option String
  | [], _ => none
  | (k0, v0) :: rest, k => if k0 = k then some v0 else vget rest k

/-- The `contains` operation is key presence. -/
def vcontains (v : VaultST) (k : String) : Bool := (vget v k).isSome

/-- The `remove` operation deletes the entry when present and is a no-op otherwise. -/
def vremove : VaultST → String → VaultST
  | [], _ => []
  | (k0, v0) :: rest, k =>
    if k0 = k then rest else (k0, v0) :: vremove rest k

/-- The `clear` operation empties the store. -/
def vclear (_ : VaultST) : VaultST := []

/-- The `keys` operation enumerates the keys in insertion order. -/
def vkeys (v : VaultST) : List String := v.map Prod.fst

/-- The size query: current entry count. -/
def vlen (v : VaultST) : Nat := v.length

theorem vget_vset (v : VaultST) (k k' val : String) :
    vget (vset v k val) k' = if k' = k then some val else vget v k' := by
  induction v with
  | nil =>
    simp only [vset, vget]
    by_cases h : k = k'
    · subst h
      simp
    · rw [if_neg h, if_neg (fun hh => h hh.symm)]
  | cons kv rest ih =>
    obtain ⟨k0, v0⟩ := kv
    by_cases h0 : k0 = k
    · subst h0
      simp only [vset, if_pos rfl, vget]
      by_cases h : k0 = k'
      · subst h
        simp
      · rw [if_neg h, if_neg (fun hh => h hh.symm), if_neg h]
    · simp only [vset, if_neg h0, vget]
      by_cases h : k0 = k'
      · subst h
        rw [if_pos rfl, if_neg h0, if_pos rfl]
      · rw [if_neg h, if_neg h, ih]

theorem vcontains_vset_self (v : VaultST) (k val : String) :
    vcontains (vset v k val) k = true := by
  simp [vcontains, vget_vset]

theorem vkeys_vset (v : VaultST) (k val : String) :
    vkeys (vset v k val) = if vcontains v k then vkeys v else vkeys v ++ [k] := by
  induction v with
  | nil => simp [vkeys, vset, vcontains, vget]
  | cons kv rest ih =>
    obtain ⟨k0, v0⟩ := kv
    by_cases h0 : k0 = k
    · subst h0
      simp [vkeys, vset, vcontains, vget]
    · have hcon : vcontains ((k0, v0) :: rest) k = vcontains rest k := by
        simp [vcontains, vget, h0]
      rw [show vset ((k0, v0) :: rest) k val = (k0, v0) :: vset rest k val by
        simp [vset, h0]]
      rw [show vkeys ((k0, v0) :: vset rest k val) = k0 :: vkeys (vset rest k val) from rfl]
      rw [ih, hcon]
      by_cases hc : vcontains rest k
      · simp [hc, vkeys]
      · simp [hc, vkeys]

theorem vlen_vset (v : VaultST) (k val : String) :
    vlen (vset v k val) = if vcontains v k then vlen v else vlen v + 1 := by
  have h := congrArg List.length (vkeys_vset v k val)
  by_cases hc : vcontains v k = true
  · rw [if_pos hc] at h
    rw [if_pos hc]
    simpa [vlen, vkeys] using h
  · rw [if_neg hc] at h
    rw [if_neg hc]
    simp only [vkeys, List.length_append, List.length_map] at h
    simpa [vlen, vkeys] using h

theorem vget_absent (v : VaultST) (k : String) (h : vcontains v k = false) :
    vget v k = none := by
  cases hg : vget v k
  · rfl
  · rw [vcontains, hg] at h
    simp at h

theorem vremove_absent (v : VaultST) (k : String) (h : vcontains v k = false) :
    vremove v k = v := by
  induction v with
  | nil => rfl
  | cons kv rest ih =>
    obtain ⟨k0, v0⟩ := kv
    by_cases h0 : k0 = k
    · subst h0
      rw [vcontains, vget] at h
      simp at h
    · rw [vcontains, vget] at h
      rw [if_neg h0] at h
      simp [vremove, h0, ih h]

theorem vcontains_vremove (v : VaultST) (k : String)
    (hnd : (v.map Prod.fst).Nodup) : vcontains (vremove v k) k = false := by
  induction v with
  | nil => rfl
  | cons kv rest ih =>
    obtain ⟨k0, v0⟩ := kv
    simp only [List.map_cons, List.nodup_cons] at hnd
    by_cases h0 : k0 = k
    · subst h0
      rw [show vremove ((k0, v0) :: rest) k0 = rest by simp [vremove]]
      cases hg : vget rest k0
      · simp [vcontains, hg]
      · exfalso
        apply hnd.1
        clear ih hnd
        induction rest with
        | nil => exact absurd hg (by simp [vget])
        | cons kv2 rest2 ih2 =>
          obtain ⟨k2, v2⟩ := kv2
          by_cases h2 : k2 = k0
          · simp [h2]
          · rw [vget, if_neg h2] at hg
            simp [ih2 hg]
    · rw [show vremove ((k0, v0) :: rest) k = (k0, v0) :: vremove rest k by
        simp [vremove, h0]]
      rw [vcontains, vget, if_neg h0]
      exact ih hnd.2

/-- C5: the Vault operation contract for a single caller.  A fresh vault is
empty; after `set(k, v)`, `get(k)` returns `v` and `contains(k)` holds;
`get` on an absent key signals absence (`none`) rather than failing;
`remove` makes the key absent and is a no-op on an absent key; `clear`
empties the store; `keys` enumerates in insertion order (an overwrite keeps
the original position, an insert appends); the size query is the entry
count. -/
theorem C5_vault_contract (v : VaultST) (k ka kr val : String)
    (hnd : (v.map Prod.fst).Nodup) (habs : vcontains v kr = false) :
    vlen vaultNew = 0
      ∧ vget (vset v k val) k = some val
      ∧ vcontains (vset v k val) k = true
      ∧ (vcontains v ka = false → vget v ka = none)
      ∧ vcontains (vremove v k) k = false
      ∧ vremove v kr = v
      ∧ vlen (vclear v) = 0
      ∧ vkeys (vset v k val) = (if vcontains v k then vkeys v else vkeys v ++ [k])
      ∧ vlen v = v.length := by
  refine ⟨rfl, ?_, vcontains_vset_self v k val, vget_absent v ka,
    vcontains_vremove v k hnd, vremove_absent v kr habs, rfl,
    vkeys_vset v k val, rfl⟩
  rw [vget_vset]
  simp

/-- C5 witness: a one-entry vault with key `"a"`; removing `"a"` makes it
absent, removing the never-inserted `"z"` is a no-op. -/
theorem C5_vault_contract_witness :
    vcontains (vremove [("a", "1")] "a") "a" = false
      ∧ vremove [("a", "1")] "z" = [("a", "1")] :=
  ⟨(C5_vault_contract [("a", "1")] "a" "x" "z" "v" (by decide) (by decide)).2.2.2.2.1,
   (C5_vault_contract [("a", "1")] "a" "x" "z" "v" (by decide) (by decide)).2.2.2.2.2.1⟩

/-! ## Concurrent distinct-key writes

Modelled from the spec: section 4.1 requires every Vault operation to be
safe under concurrent callers through an internal mutual-exclusion
discipline whose lock hold time is a single map operation.  Under that
discipline a concurrent execution of `set` calls is some interleaving of
the individual atomic operations, so the thread-safety test's observable
outcome is quantified over **every** ordering of the writes. -/

/-- Run a sequence of `set` operations (one interleaving of the threads'
writes) against a starting vault state. -/
def vrun (ops : List (String × String)) (v : VaultST) : VaultST :=
  ops.foldl (fun st p => vset st p.1 p.2) v

theorem vget_vrun_untouched (ops : List (String × String)) (v : VaultST)
    (k : String) (h : ∀ p ∈ ops, p.1 ≠ k) : vget (vrun ops v) k = vget v k := by
  induction ops generalizing v with
  | nil => rfl
  | cons p ops ih =>
    rw [show vrun (p :: ops) v = vrun ops (vset v p.1 p.2) from rfl]
    rw [ih (vset v p.1 p.2) (fun q hq => h q (List.mem_cons_of_mem p hq))]
    rw [vget_vset]
    exact if_neg (fun hh => h p (List.mem_cons_self p ops) hh.symm)

theorem vrun_distinct (ops : List (String × String)) (v : VaultST)
    (hnd : (ops.map Prod.fst).Nodup)
    (hfresh : ∀ p ∈ ops, vcontains v p.1 = false) :
    vlen (vrun ops v) = vlen v + ops.length
      ∧ ∀ p ∈ ops, vget (vrun ops v) p.1 = some p.2 := by
  induction ops generalizing v with
  | nil => simp [vrun]
  | cons p ops ih =>
    simp only [List.map_cons, List.nodup_cons] at hnd
    have hpv : vcontains v p.1 = false := hfresh p (List.mem_cons_self p ops)
    have hstep : vrun (p :: ops) v = vrun ops (vset v p.1 p.2) := rfl
    have hfresh2 : ∀ q ∈ ops, vcontains (vset v p.1 p.2) q.1 = false := by
      intro q hq
      have hne : q.1 ≠ p.1 := by
        intro hh
        exact hnd.1 (hh ▸ List.mem_map_of_mem Prod.fst hq)
      rw [vcontains, vget_vset, if_neg hne]
      exact hfresh q (List.mem_cons_of_mem p hq)
    obtain ⟨ihlen, ihget⟩ := ih (vset v p.1 p.2) hnd.2 hfresh2
    constructor
    · rw [hstep, ihlen, vlen_vset, if_neg (by rw [hpv]; exact Bool.false_ne_true)]
      simp only [List.length_cons]
      omega
    · intro q hq
      rcases List.mem_cons.mp hq with hq1 | hq2
      · subst hq1
        have huntouched : ∀ r ∈ ops, r.1 ≠ q.1 := by
          intro r hr hh
          exact hnd.1 (hh ▸ List.mem_map_of_mem Prod.fst hr)
        rw [hstep, vget_vrun_untouched ops (vset v q.1 q.2) q.1 huntouched]
        rw [vget_vset, if_pos rfl]
      · exact hstep ▸ ihget q hq2

/-- C9: distinct-key concurrent writes are never lost.  For every
interleaving `ops` of the threads' writes (all keys distinct, as in the
10-thread, 100-writes-per-thread test), running the atomic `set`
operations in that order against a fresh vault yields exactly
`ops.length` retrievable entries — 1000 in the test — with every key
mapping to the value written for it. -/
theorem C9_vault_concurrent_writes (ops : List (String × String))
    (hnd : (ops.map Prod.fst).Nodup) :
    vlen (vrun ops vaultNew) = ops.length
      ∧ ∀ p ∈ ops, vget (vrun ops vaultNew) p.1 = some p.2 := by
  have h := vrun_distinct ops vaultNew hnd (fun p _ => rfl)
  exact ⟨by rw [h.1]; simp [vlen, vaultNew], h.2⟩

/-- C9 witness: an interleaving of two threads' distinct-keyed writes
(thread 0 writes `key_0_0`, `key_0_1`; thread 1 writes `key_1_0`
in between); all three writes are retrievable. -/
theorem C9_vault_concurrent_writes_witness :
    vlen (vrun [("key_0_0", "value_0_0"), ("key_1_0", "value_1_0"),
      ("key_0_1", "value_0_1")] vaultNew) = 3 :=
  (C9_vault_concurrent_writes
    [("key_0_0", "value_0_0"), ("key_1_0", "value_1_0"), ("key_0_1", "value_0_1")]
    (by decide)).1

/-! ## BanSubstrings scanner

Modelled from the spec: the BanSubstrings scanner lives in the Rust core,
not among the available sources.  Sections 4.2 and 4.6 describe it: a
finite non-empty set of literal substrings and a case-sensitivity flag;
case-insensitive mode normalizes pattern and haystack consistently (both
lower-cased); matched spans are replaced by a fixed placeholder token;
text containing no banned substring is returned unmodified. -/

/-- BanSubstrings configuration: substrings, case sensitivity, redact flag. -/
structure BanCfg where
  substrings : List Text
  case_sensitive : Bool
  redact : Bool

/-- The normalization applied before matching: identity when
case-sensitive, lower-casing otherwise. -/
def nrm (caseSensitive : Bool) (c : Char) : Char :=
  if caseSensitive then c else c.toLower

/-- Normalization of a whole text. -/
def nrmL (caseSensitive : Bool) (t : Text) : Text := t.map (nrm caseSensitive)

/-- The fixed redaction placeholder token. -/
def placeholderL : Text := ['[', 'R', 'E', 'D', 'A', 'C', 'T', 'E', 'D', ']']

/-- The first configured substring (skipping degenerate empty patterns)
that matches at the start of `t` under the configured normalization. -/
def findBan (cfg : BanCfg) (t : Text) : Option Text :=
  cfg.substrings.find?
    (fun s => !s.isEmpty && leadMatch (nrmL cfg.case_sensitive s) (nrmL cfg.case_sensitive t))

/-- The redactor: walk the text; at each position, if some banned
substring matches there, emit the placeholder and skip the matched span,
otherwise keep the character. -/
def redactBan (cfg : BanCfg) : Text → Text
  | [] => []
  | c :: rest =>
    match findBan cfg (c :: rest) with
    | some s => placeholderL ++ redactBan cfg (rest.drop (s.length - 1))
    | none => c :: redactBan cfg rest
termination_by t => t.length
decreasing_by
  · simp only [List.length_cons]
    have := List.length_drop (s.length - 1) rest
    omega
  · simp only [List.length_cons]
    omega

/-- Whether some banned substring occurs in `t` under the configured
normalization (Python's `s in t` after case folding). -/
def banFound (cfg : BanCfg) (t : Text) : Bool :=
  cfg.substrings.any
    (fun s => !s.isEmpty && occursIn (nrmL cfg.case_sensitive s) (nrmL cfg.case_sensitive t))

/-- Modelled from the spec: the BanSubstrings `scan` — invalid when a
banned substring occurs; sanitized output is the redacted text when a
match was found and redaction is on, the input itself otherwise. -/
def scanBan (cfg : BanCfg) (t : Text) : ScanResult :=
  let bad := banFound cfg t
  { sanitized_input := if bad && cfg.redact then redactBan cfg t else t
    is_valid := !bad
    risk_score := if bad then 1 else 0
    entities := []
    risk_factors := [] }

/-! ## Eager configuration validation

Modelled from the spec: scanner construction validates the configuration
(an empty substring list is a `ConfigError` at construction time) and a
successfully constructed scanner never raises a configuration error at
scan time (section 7(a)). -/

/-- The configuration error surfaced at scanner construction. -/
inductive ConfigErr where
  | emptySubstrings
deriving DecidableEq, Repr

/-- Construction of a BanSubstrings scanner: rejects an empty substring
list eagerly, otherwise returns the validated configuration. -/
def banSubstringsNew (subs : List Text) (caseSensitive redact : Bool) :
    Except ConfigErr BanCfg :=
  if subs.isEmpty then Except.error ConfigErr.emptySubstrings
  else Except.ok ⟨subs, caseSensitive, redact⟩

/-- Whether an `Except` is an error. -/
def isErr {ε α : Type} : Except ε α → Bool
  | Except.error _ => true
  | Except.ok _ => false

/-- Construct-then-scan: the full API call sequence; an error can only
come from the construction step. -/
def constructAndScan (subs : List Text) (caseSensitive redact : Bool) (t : Text) :
    Except ConfigErr ScanResult :=
  (banSubstringsNew subs caseSensitive redact).map (fun cfg => scanBan cfg t)

/-- C7: configuration validation is eager.  Constructing a scanner with an
empty substring list fails with `ConfigError` at construction time; for
every input, the construct-then-scan sequence errors exactly when the
configuration is empty; and whenever construction succeeds, scanning
never produces a configuration error. -/
theorem C7_eager_config_validation (subs : List Text) (caseSensitive redact : Bool)
    (t : Text) :
    banSubstringsNew [] caseSensitive redact = Except.error ConfigErr.emptySubstrings
      ∧ isErr (constructAndScan subs caseSensitive redact t) = subs.isEmpty
      ∧ (∀ cfg, banSubstringsNew subs caseSensitive redact = Except.ok cfg →
          isErr (constructAndScan subs caseSensitive redact t) = false) := by
  refine ⟨rfl, ?_, ?_⟩
  · cases subs with
    | nil => rfl
    | cons s rest => rfl
  · intro cfg hcfg
    cases subs with
    | nil => exact absurd hcfg (by simp [banSubstringsNew])
    | cons s rest => rfl

/-- C7 witness: the one-substring configuration constructs successfully
and scanning raises no error. -/
theorem C7_eager_config_validation_witness :
    isErr (constructAndScan [['a']] true true ['b']) = false :=
  (C7_eager_config_validation [['a']] true true ['b']).2.2
    ⟨[['a']], true, true⟩ rfl

/-! ## Redaction safety

The banned-substring-free guarantee for the redactor.  The key boundary
facts: the placeholder's first and last characters (the brackets) occur in
no banned substring, no banned substring occurs inside the placeholder,
and no banned substring is empty.  Under these side conditions every
occurrence of a banned substring in the redactor's output would have to
lie inside a literal run, which is impossible because literal characters
are only emitted at positions where no banned substring matches. -/

/-- The last element of a character list, if any. -/
def lastOf : Text → Option Char
  | [] => none
  | [a] => some a
  | _ :: b :: t => lastOf (b :: t)

theorem lastOf_cons_ne (a : Char) (l : Text) (hl : l ≠ []) :
    lastOf (a :: l) = lastOf l := by
  cases l with
  | nil => exact absurd rfl hl
  | cons b t => rfl

theorem lastOf_append (u w : Text) (hw : w ≠ []) : lastOf (u ++ w) = lastOf w := by
  induction u with
  | nil => rfl
  | cons a u ih =>
    rw [List.cons_append,
      lastOf_cons_ne a (u ++ w) (fun h => hw (List.append_eq_nil.mp h).2), ih]

theorem lastOf_mem : ∀ (l : Text) (x : Char), lastOf l = some x → x ∈ l
  | [], x, h => by simp [lastOf] at h
  | [a], x, h => by
    simp only [lastOf, Option.some.injEq] at h
    simp [h]
  | a :: b :: t, x, h => by
    have hm := lastOf_mem (b :: t) x h
    exact List.mem_cons_of_mem a hm

theorem lastOf_isSome (l : Text) (hl : l ≠ []) : ∃ x, lastOf l = some x := by
  induction l with
  | nil => exact absurd rfl hl
  | cons a l ih =>
    cases l with
    | nil => exact ⟨a, rfl⟩
    | cons b t => exact ih (by simp)

theorem mem_of_mem_take {x : Char} : ∀ (n : Nat) (l : Text), x ∈ l.take n → x ∈ l := by
  intro n l
  induction l generalizing n with
  | nil => simp
  | cons a l ih =>
    cases n with
    | zero => simp
    | succ m =>
      rw [List.take_succ_cons]
      intro h
      rcases List.mem_cons.mp h with h1 | h2
      · simp [h1]
      · exact List.mem_cons_of_mem a (ih m h2)

theorem take_pos_ne_nil (k : Nat) (l : Text) (hk : 0 < k) (hl : l ≠ []) :
    l.take k ≠ [] := by
  cases l with
  | nil => exact absurd rfl hl
  | cons a t =>
    cases k with
    | zero => omega
    | succ m => simp [List.take_succ_cons]

theorem head_take_pos (k : Nat) (l : Text) (hk : 0 < k) (hl : l ≠ []) :
    (l.take k).head? = l.head? := by
  cases l with
  | nil => exact absurd rfl hl
  | cons a t =>
    cases k with
    | zero => omega
    | succ m => simp [List.take_succ_cons]

/-- Occurrence-splitting: if `s` occurs in `A ++ B` but does not occur in
`A`, no character of `s` equals `A`'s first or last character, and `s` is
non-empty, then the occurrence lies entirely inside `B`. -/
theorem occurs_split (s A B : Text) (hs : s ≠ [])
    (hh : ∀ c ∈ s, A.head? ≠ some c)
    (hl : ∀ c ∈ s, lastOf A ≠ some c)
    (hA : occursIn s A = false)
    (h : occursIn s (A ++ B) = true) : occursIn s B = true := by
  rcases (occursIn_iff s (A ++ B)).mp h with ⟨u, v, huv⟩
  have huv2 : A ++ B = u ++ (s ++ v) := by rw [huv, List.append_assoc]
  by_cases hle : A.length ≤ u.length
  · apply (occursIn_iff s B).mpr
    refine ⟨u.drop A.length, v, ?_⟩
    have hB : B = (A ++ B).drop A.length := (List.drop_left A B).symm
    rw [hB, huv2, List.drop_append_eq_append_drop, Nat.sub_eq_zero_of_le hle,
      List.drop_zero, ← List.append_assoc]
  · push_neg at hle
    have hA2 : A = u ++ (s ++ v).take (A.length - u.length) := by
      have h1 : (A ++ B).take A.length = A := List.take_left A B
      rw [huv2, List.take_append_eq_append_take,
        List.take_of_length_le (Nat.le_of_lt hle)] at h1
      exact h1.symm
    have hkpos : 0 < A.length - u.length := by omega
    by_cases hsk : s.length ≤ A.length - u.length
    · exfalso
      have htk : (s ++ v).take (A.length - u.length)
          = s ++ v.take (A.length - u.length - s.length) := by
        rw [List.take_append_eq_append_take, List.take_of_length_le hsk]
      rw [htk, ← List.append_assoc] at hA2
      have hocc : occursIn s A = true :=
        (occursIn_iff s A).mpr ⟨u, v.take (A.length - u.length - s.length), hA2⟩
      rw [hocc] at hA
      exact absurd hA (by decide)
    · push_neg at hsk
      have htk : (s ++ v).take (A.length - u.length) = s.take (A.length - u.length) := by
        rw [List.take_append_eq_append_take,
          Nat.sub_eq_zero_of_le (Nat.le_of_lt hsk), List.take_zero,
          List.append_nil]
      rw [htk] at hA2
      cases hu : u with
      | nil =>
        subst hu
        rw [List.nil_append] at hA2
        have hhd : A.head? = s.head? := by
          rw [hA2]
          exact head_take_pos _ s hkpos hs
        cases s with
        | nil => exact absurd rfl hs
        | cons a s1 =>
          exact (hh a (List.mem_cons_self a s1) (by simpa using hhd)).elim
      | cons u0 u1 =>
        have htkne : s.take (A.length - u.length) ≠ [] := take_pos_ne_nil _ s hkpos hs
        have hlast := congrArg lastOf hA2
        rw [lastOf_append u _ htkne] at hlast
        rcases lastOf_isSome _ htkne with ⟨x, hx⟩
        have hxs : x ∈ s := mem_of_mem_take _ s (lastOf_mem _ x hx)
        exact (hl x hxs (by rw [hlast, hx])).elim

theorem redactBan_cons (cfg : BanCfg) (c : Char) (rest : Text) :
    redactBan cfg (c :: rest) =
      match findBan cfg (c :: rest) with
      | some s => placeholderL ++ redactBan cfg (rest.drop (s.length - 1))
      | none => c :: redactBan cfg rest := by
  rw [redactBan]

theorem redactBan_cons_some (cfg : BanCfg) (c : Char) (rest : Text) (s : Text)
    (hf : findBan cfg (c :: rest) = some s) :
    redactBan cfg (c :: rest) = placeholderL ++ redactBan cfg (rest.drop (s.length - 1)) := by
  rw [redactBan_cons, hf]

theorem redactBan_cons_none (cfg : BanCfg) (c : Char) (rest : Text)
    (hf : findBan cfg (c :: rest) = none) :
    redactBan cfg (c :: rest) = c :: redactBan cfg rest := by
  rw [redactBan_cons, hf]

theorem findBan_some (cfg : BanCfg) (t s : Text) (hf : findBan cfg t = some s) :
    s ∈ cfg.substrings ∧ s ≠ []
      ∧ leadMatch (nrmL cfg.case_sensitive s) (nrmL cfg.case_sensitive t) = true := by
  have hmem := List.mem_of_find?_eq_some hf
  have hp := List.find?_some hf
  rw [Bool.and_eq_true] at hp
  refine ⟨hmem, ?_, hp.2⟩
  intro hnil
  rw [hnil] at hp
  exact absurd hp.1 (by decide)

theorem findBan_none (cfg : BanCfg) (t : Text) (hf : findBan cfg t = none)
    (s : Text) (hs : s ∈ cfg.substrings) (hne : s ≠ []) :
    leadMatch (nrmL cfg.case_sensitive s) (nrmL cfg.case_sensitive t) = false := by
  have hp := List.find?_eq_none.mp hf s hs
  cases hlm : leadMatch (nrmL cfg.case_sensitive s) (nrmL cfg.case_sensitive t) with
  | false => rfl
  | true =>
    exfalso
    apply hp
    rw [hlm, Bool.and_true]
    cases s with
    | nil => exact absurd rfl hne
    | cons a s1 => rfl

theorem leadMatch_cons (a : Char) (w : Text) (b : Char) (t : Text) :
    leadMatch (a :: w) (b :: t) = ((a == b) && leadMatch w t) := rfl

theorem nrmL_cons (cs : Bool) (c : Char) (t : Text) :
    nrmL cs (c :: t) = nrm cs c :: nrmL cs t := rfl

theorem nrmL_append (cs : Bool) (a b : Text) :
    nrmL cs (a ++ b) = nrmL cs a ++ nrmL cs b := by
  simp [nrmL]

theorem nrmL_ne_nil (cs : Bool) (s : Text) (hs : s ≠ []) : nrmL cs s ≠ [] := by
  cases s with
  | nil => exact absurd rfl hs
  | cons a t => simp [nrmL]

/-- Prefix transfer: a non-empty word avoiding the placeholder's first
character that is an initial segment of the redacted output (after
normalization) is an initial segment of the normalized input. -/
theorem leadMatch_redact_transfer (cfg : BanCfg) :
    ∀ (t : Text) (w : Text), w ≠ [] →
      (∀ c ∈ w, (nrmL cfg.case_sensitive placeholderL).head? ≠ some c) →
      leadMatch w (nrmL cfg.case_sensitive (redactBan cfg t)) = true →
      leadMatch w (nrmL cfg.case_sensitive t) = true := by
  intro t
  induction t with
  | nil =>
    intro w hw hph hlm
    rw [show redactBan cfg [] = [] by rw [redactBan]] at hlm
    cases w with
    | nil => exact absurd rfl hw
    | cons a w1 => exact absurd hlm (by simp [nrmL, leadMatch])
  | cons c rest ih =>
    intro w hw hph hlm
    cases hf : findBan cfg (c :: rest) with
    | some s =>
      exfalso
      rw [redactBan_cons_some cfg c rest s hf] at hlm
      cases w with
      | nil => exact hw rfl
      | cons a w1 =>
        rw [nrmL_append] at hlm
        rw [show nrmL cfg.case_sensitive placeholderL
            = nrm cfg.case_sensitive '[' :: nrmL cfg.case_sensitive
                ['R', 'E', 'D', 'A', 'C', 'T', 'E', 'D', ']'] from rfl,
          List.cons_append, leadMatch_cons, Bool.and_eq_true] at hlm
        have ha : a = nrm cfg.case_sensitive '[' := eq_of_beq hlm.1
        apply hph a (List.mem_cons_self a w1)
        rw [show (nrmL cfg.case_sensitive placeholderL).head?
            = some (nrm cfg.case_sensitive '[') from rfl, ha]
    | none =>
      rw [redactBan_cons_none cfg c rest hf] at hlm
      cases w with
      | nil => exact absurd rfl hw
      | cons a w1 =>
        rw [nrmL_cons, leadMatch_cons, Bool.and_eq_true] at hlm
        rw [nrmL_cons, leadMatch_cons, Bool.and_eq_true]
        refine ⟨hlm.1, ?_⟩
        cases hw1 : w1 with
        | nil => rfl
        | cons b w2 =>
          exact hw1 ▸ ih w1 (by simp [hw1])
            (fun x hx => hph x (List.mem_cons_of_mem a hx)) hlm.2

theorem not_isEmpty_of_ne_nil (s : Text) (hs : s ≠ []) : (!s.isEmpty) = true := by
  cases s with
  | nil => exact absurd rfl hs
  | cons a l => rfl

/-- Redaction safety: under the boundary side conditions, no banned
substring occurs (after normalization) in the redactor's output. -/
theorem redactBan_no_occurs (cfg : BanCfg)
    (hne : ∀ s ∈ cfg.substrings, s ≠ [])
    (hhd : ∀ s ∈ cfg.substrings, ∀ c ∈ nrmL cfg.case_sensitive s,
        (nrmL cfg.case_sensitive placeholderL).head? ≠ some c)
    (hlst : ∀ s ∈ cfg.substrings, ∀ c ∈ nrmL cfg.case_sensitive s,
        lastOf (nrmL cfg.case_sensitive placeholderL) ≠ some c)
    (hph : ∀ s ∈ cfg.substrings,
        occursIn (nrmL cfg.case_sensitive s) (nrmL cfg.case_sensitive placeholderL) = false) :
    ∀ (n : Nat) (t : Text), t.length ≤ n → ∀ s ∈ cfg.substrings,
      occursIn (nrmL cfg.case_sensitive s) (nrmL cfg.case_sensitive (redactBan cfg t)) = false := by
  intro n
  induction n with
  | zero =>
    intro t hlen s hs
    have ht : t = [] := List.length_eq_zero.mp (Nat.le_zero.mp hlen)
    subst ht
    rw [show redactBan cfg [] = [] by rw [redactBan]]
    cases hval : nrmL cfg.case_sensitive s with
    | nil => exact absurd hval (nrmL_ne_nil _ s (hne s hs))
    | cons a l => rfl
  | succ n ihn =>
    intro t hlen s hs
    cases t with
    | nil =>
      rw [show redactBan cfg [] = [] by rw [redactBan]]
      cases hval : nrmL cfg.case_sensitive s with
      | nil => exact absurd hval (nrmL_ne_nil _ s (hne s hs))
      | cons a l => rfl
    | cons c rest =>
      cases hf : findBan cfg (c :: rest) with
      | some s0 =>
        rw [redactBan_cons_some cfg c rest s0 hf, nrmL_append]
        cases hocc : occursIn (nrmL cfg.case_sensitive s)
            (nrmL cfg.case_sensitive placeholderL
              ++ nrmL cfg.case_sensitive (redactBan cfg (rest.drop (s0.length - 1)))) with
        | false => rfl
        | true =>
          exfalso
          have hocc2 := occurs_split (nrmL cfg.case_sensitive s)
            (nrmL cfg.case_sensitive placeholderL)
            (nrmL cfg.case_sensitive (redactBan cfg (rest.drop (s0.length - 1))))
            (nrmL_ne_nil _ s (hne s hs))
            (fun x hx => hhd s hs x hx)
            (fun x hx => hlst s hs x hx)
            (hph s hs) hocc
          have hlen2 : (rest.drop (s0.length - 1)).length ≤ n := by
            have hd := List.length_drop (s0.length - 1) rest
            simp only [List.length_cons] at hlen
            omega
          have hfin := ihn (rest.drop (s0.length - 1)) hlen2 s hs
          rw [hfin] at hocc2
          exact Bool.noConfusion hocc2
      | none =>
        rw [redactBan_cons_none cfg c rest hf, nrmL_cons]
        cases hocc : occursIn (nrmL cfg.case_sensitive s)
            (nrm cfg.case_sensitive c :: nrmL cfg.case_sensitive (redactBan cfg rest)) with
        | false => rfl
        | true =>
          exfalso
          rcases occursIn_cons_elim hocc with hpre | htail
          · have hpre2 : leadMatch (nrmL cfg.case_sensitive s)
                (nrmL cfg.case_sensitive (redactBan cfg (c :: rest))) = true := by
              rw [redactBan_cons_none cfg c rest hf, nrmL_cons]
              exact hpre
            have htr := leadMatch_redact_transfer cfg (c :: rest) (nrmL cfg.case_sensitive s)
              (nrmL_ne_nil _ s (hne s hs)) (fun x hx => hhd s hs x hx) hpre2
            have hnone := findBan_none cfg (c :: rest) hf s hs (hne s hs)
            rw [htr] at hnone
            exact Bool.noConfusion hnone
          · have hfin := ihn rest (by simp only [List.length_cons] at hlen; omega) s hs
            rw [hfin] at htail
            exact Bool.noConfusion htail

/-- C2: BanSubstrings scan behaviour.  Side conditions (all satisfied by
real configurations such as `["banned", "forbidden"]` with the
`[REDACTED]` placeholder): every configured substring is non-empty, none
contains the placeholder's bracket boundary characters, and none occurs
inside the placeholder itself.  Then: if the text contains a configured
substring (case-matched per config), the scan is invalid and, with
redaction on, no configured substring occurs in the sanitized output; if
the text contains none, the scan is valid and the sanitized output is the
text itself, unmodified. -/
theorem C2_ban_substrings_scan (cfg : BanCfg) (t : Text)
    (hne : ∀ s ∈ cfg.substrings, s ≠ [])
    (hhd : ∀ s ∈ cfg.substrings, ∀ c ∈ nrmL cfg.case_sensitive s,
        (nrmL cfg.case_sensitive placeholderL).head? ≠ some c)
    (hlst : ∀ s ∈ cfg.substrings, ∀ c ∈ nrmL cfg.case_sensitive s,
        lastOf (nrmL cfg.case_sensitive placeholderL) ≠ some c)
    (hph : ∀ s ∈ cfg.substrings,
        occursIn (nrmL cfg.case_sensitive s) (nrmL cfg.case_sensitive placeholderL) = false) :
    ((∃ s ∈ cfg.substrings,
        occursIn (nrmL cfg.case_sensitive s) (nrmL cfg.case_sensitive t) = true) →
        (scanBan cfg t).is_valid = false
          ∧ (cfg.redact = true → ∀ s ∈ cfg.substrings,
              occursIn (nrmL cfg.case_sensitive s)
                (nrmL cfg.case_sensitive (scanBan cfg t).sanitized_input) = false))
      ∧ ((∀ s ∈ cfg.substrings,
            occursIn (nrmL cfg.case_sensitive s) (nrmL cfg.case_sensitive t) = false) →
          (scanBan cfg t).is_valid = true ∧ (scanBan cfg t).sanitized_input = t) := by
  constructor
  · rintro ⟨s, hs, hsocc⟩
    have hbad : banFound cfg t = true := by
      rw [banFound, List.any_eq_true]
      refine ⟨s, hs, ?_⟩
      rw [hsocc, Bool.and_true]
      exact not_isEmpty_of_ne_nil s (hne s hs)
    constructor
    · simp [scanBan, hbad]
    · intro hrd s1 hs1
      have hsan : (scanBan cfg t).sanitized_input = redactBan cfg t := by
        simp [scanBan, hbad, hrd]
      rw [hsan]
      exact redactBan_no_occurs cfg hne hhd hlst hph t.length t (Nat.le_refl _) s1 hs1
  · intro hall
    have hbad : banFound cfg t = false := by
      rw [banFound]
      cases hb : cfg.substrings.any (fun s => !s.isEmpty
          && occursIn (nrmL cfg.case_sensitive s) (nrmL cfg.case_sensitive t)) with
      | false => rfl
      | true =>
        exfalso
        rcases List.any_eq_true.mp hb with ⟨s, hs, hp⟩
        rw [Bool.and_eq_true] at hp
        rw [hall s hs] at hp
        exact Bool.noConfusion hp.2
    constructor
    · simp [scanBan, hbad]
    · simp [scanBan, hbad]

/-- The acceptance-test configuration: `["banned", "forbidden"]`,
case-insensitive, redacting. -/
def banCfgW : BanCfg :=
  ⟨[['b', 'a', 'n', 'n', 'e', 'd'], ['f', 'o', 'r', 'b', 'i', 'd', 'd', 'e', 'n']],
   false, true⟩

/-- The acceptance-test input containing a banned word. -/
def banTextW : Text := "This contains banned word".toList

/-- The Unicode acceptance-test configuration: `["banned"]`. -/
def uniCfgW : BanCfg := ⟨[['b', 'a', 'n', 'n', 'e', 'd']], false, true⟩

/-- The Unicode acceptance-test input. -/
def uniTextW : Text := "Hello 世界 🌍".toList

/-- C2 witness: the acceptance-test instances.  `"This contains banned
word"` scans invalid and `"banned"` does not occur in the redacted output;
the Unicode text `"Hello 世界 🌍"` scans valid and is returned exactly
unmodified. -/
theorem C2_ban_substrings_scan_witness :
    (scanBan banCfgW banTextW).is_valid = false
      ∧ occursIn (nrmL false ['b', 'a', 'n', 'n', 'e', 'd'])
          (nrmL false (scanBan banCfgW banTextW).sanitized_input) = false
      ∧ (scanBan uniCfgW uniTextW).is_valid = true
      ∧ (scanBan uniCfgW uniTextW).sanitized_input = uniTextW := by
  have h1 := C2_ban_substrings_scan banCfgW banTextW
    (by decide) (by decide) (by decide) (by decide)
  have h2 := C2_ban_substrings_scan uniCfgW uniTextW
    (by decide) (by decide) (by decide) (by decide)
  have ha := h1.1 ⟨['b', 'a', 'n', 'n', 'e', 'd'], by decide, by decide⟩
  have hb := h2.2 (by decide)
  exact ⟨ha.1, ha.2 rfl ['b', 'a', 'n', 'n', 'e', 'd'] (by decide), hb.1, hb.2⟩

end LlmShield
